import Mathlib

/-!
# Olivia: run-length codec and network start-up

A shallow embedding of two parts of the Olivia key-value store.

* `network/network_handler.go`: `executeRepeatedly`, `heartbeatRemoteNodes`,
  `getRemoteBloomFilters`, `Heartbeat` and `StartIncomingNetwork`. Channels, sleeps, `go`
  statements and calls into other packages are recorded as events of a trace; loops that need
  not terminate take a bound `fuel` on the number of iterations that are unrolled.
* `bloomfilter/rle_test.go` exercises `Encode`, `Decode` and `writeOutput`, whose file is not
  among the sources; they are modelled from the specification.

Definitions come first, then auxiliary lemmas, then one theorem per claim.
-/

namespace Olivia

/-! ## Codec -/

/-- Modelled from the spec: `writeOutput(accumulator, symbol, count)`, whose source file
(`bloomfilter/rle.go`) is missing. It appends `symbol` and then, if `count != 1`, the decimal
digits of `count`. -/
def writeOutputChars (acc : List Char) (symbol : Char) (count : Nat) : List Char :=
  if count ≠ 1 then acc ++ symbol :: Nat.toDigits 10 count else acc ++ [symbol]

/-- Modelled from the spec: the left-to-right scan of `Encode` (source file missing). `cur` is
the symbol of the run being counted, `count` its length so far, `acc` the output so far. The
last run is flushed at the end of the input. -/
def encodeLoop : Char → Nat → List Char → List Char → List Char
  | cur, count, acc, [] => writeOutputChars acc cur count
  | cur, count, acc, c :: rest =>
    if c = cur then encodeLoop cur (count + 1) acc rest
    else encodeLoop c 1 (writeOutputChars acc cur count) rest

/-- Modelled from the spec: `Encode` on the characters of its input (source file missing).
Empty input gives empty output. -/
def encodeChars : List Char → List Char
  | [] => []
  | c :: rest => encodeLoop c 1 [] rest

/-- Value of a decimal digit character. -/
def digitValue (c : Char) : Nat := c.toNat - 48

/-- Modelled from the spec: the left-to-right scan of `Decode` (source file missing). `cur` is
the symbol of the token being read, `count` the run count parsed from the digits consumed so far
(`none` when no digit has followed the symbol yet), `acc` the output so far. A token ends at the
next non-digit character or at the end of the input; its symbol is emitted `count` times,
once when no digits followed. -/
def decodeLoop : Char → Option Nat → List Char → List Char → List Char
  | cur, count, acc, [] => acc ++ List.replicate (count.getD 1) cur
  | cur, count, acc, c :: rest =>
    if c.isDigit then decodeLoop cur (some (count.getD 0 * 10 + digitValue c)) acc rest
    else decodeLoop c none (acc ++ List.replicate (count.getD 1) cur) rest

/-- Modelled from the spec: `Decode` on the characters of its input (source file missing). -/
def decodeChars : List Char → List Char
  | [] => []
  | c :: rest => decodeLoop c none [] rest

/-- Modelled from the spec: `Encode(input)` (source file `bloomfilter/rle.go` missing). -/
def Encode (input : String) : String := String.mk (encodeChars input.data)

/-- Modelled from the spec: `Decode(encoded)` (source file `bloomfilter/rle.go` missing). -/
def Decode (input : String) : String := String.mk (decodeChars input.data)

/-- Modelled from the spec: `writeOutput(accumulator, symbol, count)` on strings (source file
`bloomfilter/rle.go` missing). -/
def writeOutput (acc : String) (symbol : Char) (count : Nat) : String :=
  String.mk (writeOutputChars acc.data symbol count)

/-! ### The codec in the words of the specification -/

/-- Decimal numeral of `n`, most significant digit first, from the base-10 digits of `n`. -/
def decimalString (n : Nat) : List Char :=
  if n = 0 then ['0'] else (Nat.digits 10 n).reverse.map Nat.digitChar

/-- Value of a digit string read in base 10. -/
def decimalValue (ds : List Char) : Nat :=
  Nat.ofDigits 10 (ds.reverse.map digitValue)

/-- Token of a run of `s` of length `n`: `s` alone when `n = 1`, otherwise `s` followed by the
decimal numeral of `n`. -/
def runToken (s : Char) (n : Nat) : List Char :=
  if n = 1 then [s] else s :: decimalString n

/-- Put a run of `n` copies of `c` in front of a run list, merging it with the first run when
that has the same symbol. -/
def consRun (c : Char) (n : Nat) : List (Char × Nat) → List (Char × Nat)
  | [] => [(c, n)]
  | (d, m) :: rs => if c = d then (d, m + n) :: rs else (c, n) :: (d, m) :: rs

/-- The maximal runs of a sequence, each as its symbol and its length. -/
def runs : List Char → List (Char × Nat)
  | [] => []
  | c :: cs => consRun c 1 (runs cs)

/-- The sequence a run list stands for. -/
def expandRuns (rs : List (Char × Nat)) : List Char :=
  rs.flatMap (fun r => List.replicate r.2 r.1)

/-- One encoded token: a symbol and the digit characters that follow it. -/
structure Token where
  symbol : Char
  digits : List Char
deriving DecidableEq

/-- Characters of a token. -/
def Token.render (t : Token) : List Char := t.symbol :: t.digits

/-- A token is well formed when its symbol is not a digit and its digits are. -/
def Token.wellFormed (t : Token) : Prop :=
  t.symbol.isDigit = false ∧ ∀ c ∈ t.digits, c.isDigit = true

instance Token.decidableWellFormed (t : Token) : Decidable t.wellFormed := by
  unfold Token.wellFormed
  infer_instance

/-- Run count of a token: the decimal value of its digits, and 1 when it has none. -/
def Token.count (t : Token) : Nat :=
  if t.digits = [] then 1 else decimalValue t.digits

/-- What a token decodes to. -/
def Token.expand (t : Token) : List Char := List.replicate t.count t.symbol

/-- Count held by `decodeLoop` after it has consumed the digits `ds`. -/
def pendingCount (count : Option Nat) (ds : List Char) : Option Nat :=
  ds.foldl (fun o c => some (o.getD 0 * 10 + digitValue c)) count

/-- Token that `writeOutput` produces for a run. -/
def runToToken (r : Char × Nat) : Token :=
  ⟨r.1, if r.2 = 1 then [] else decimalString r.2⟩

/-! ## Network handler -/

/-- Signed 64-bit wrap-around, the arithmetic of `time.Duration`. -/
def wrapInt64 (x : Int) : Int := (x + 2 ^ 63) % 2 ^ 64 - 2 ^ 63

/-- Constant `time.Millisecond`, in nanoseconds. -/
def Millisecond : Int := 1000000

/-- Constant `time.Second`, in nanoseconds. -/
def Second : Int := 1000000000

/-- Handle `*dht.Peer`; only the address it was built for is observable here. -/
structure Peer where
  ip : String
deriving DecidableEq

/-- Struct `dht.PeerList`: two slices of nil-able peer pointers and the membership map. A slice
has the length it was made with; a store at an index beyond it panics. -/
structure PeerList where
  Peers : List (Option Peer)
  BackupPeers : List (Option Peer)
  PeerMap : List (String × Bool)
deriving DecidableEq

/-- Map store `m[k] = v`. -/
def mapStore (m : List (String × Bool)) (k : String) (v : Bool) : List (String × Bool) :=
  (k, v) :: m.filter (fun e => e.1 != k)

/-- Map read `m[k]`. -/
def mapLookup (m : List (String × Bool)) (k : String) : Option Bool := m.lookup k

/-- Struct `config.Cfg`, the fields `StartIncomingNetwork` reads. -/
structure Cfg where
  BaseNode : Bool
  RemotePeers : List String
  HeartbeatInterval : Int
  HeartbeatLoop : Int
deriving DecidableEq

/-- Channel `stopExecution chan bool` as the runner sees it: whether a receive can proceed at
the i-th `select`. -/
structure StopChan where
  ready : Nat → Bool

/-- Channel `responseChannel chan int` as the runner sees it: whether the send of the i-th
iteration finds a receiver. -/
structure RespChan where
  consumed : Nat → Bool

/-- What `executeRepeatedly` does, in order: a `select` (with whether the stop case was taken),
`time.Sleep`, a call of `toExecute`, a completed send on `responseChannel`. -/
inductive RunnerEvent
  | stopCheck (fired : Bool)
  | sleep (d : Int)
  | call
  | send (v : Int)
deriving DecidableEq

/-- How a run of `executeRepeatedly` stands: it returned, it is still looping after the unrolled
iterations, or it is blocked forever in a send nobody receives. -/
inductive RunStatus
  | returned
  | running
  | blocked
deriving DecidableEq

/-- Result of a run: its status, its trace and the state the action has produced. -/
structure RunResult (σ : Type) where
  status : RunStatus
  trace : List RunnerEvent
  state : σ

/-- A receive from a nil channel never proceeds. -/
def stopReady (stopExecution : Option StopChan) (i : Nat) : Bool :=
  match stopExecution with
  | none => false
  | some ch => ch.ready i

/-- The `for { select { ... } }` of `executeRepeatedly`. `fuel` bounds the iterations that are
unrolled, `i` counts the iterations done so far. The `break` of the default case leaves the
`select`, so the loop goes on; the stop case returns. -/
def executeLoop {σ : Type} (sleepDuration : Int) (toExecute : σ → σ)
    (stopExecution : Option StopChan) (responseChannel : Option RespChan) :
    Nat → Nat → σ → List RunnerEvent → RunResult σ
  | 0, _, s, tr => ⟨RunStatus.running, tr, s⟩
  | fuel + 1, i, s, tr =>
    if stopReady stopExecution i then
      ⟨RunStatus.returned, tr ++ [RunnerEvent.stopCheck true], s⟩
    else
      let tr1 := tr ++ [RunnerEvent.stopCheck false, RunnerEvent.sleep sleepDuration,
        RunnerEvent.call]
      let s1 := toExecute s
      match responseChannel with
      | none => executeLoop sleepDuration toExecute stopExecution responseChannel fuel (i + 1) s1 tr1
      | some ch =>
        if ch.consumed i then
          executeLoop sleepDuration toExecute stopExecution responseChannel fuel (i + 1) s1
            (tr1 ++ [RunnerEvent.send 1])
        else ⟨RunStatus.blocked, tr1, s1⟩

/-- Function `executeRepeatedly(sleepDuration, toExecute, stopExecution, responseChannel)`,
started in state `s`. -/
def executeRepeatedly {σ : Type} (sleepDuration : Int) (toExecute : σ → σ)
    (stopExecution : Option StopChan) (responseChannel : Option RespChan)
    (s : σ) (fuel : Nat) : RunResult σ :=
  executeLoop sleepDuration toExecute stopExecution responseChannel fuel 0 s []

/-- The two methods of a peer that the loops start. -/
inductive PeerOp
  | TestConnection
  | GetBloomFilter
deriving DecidableEq

/-- One executed `go peerList[peer].Op()` statement. -/
structure Dispatch where
  op : PeerOp
  slot : Nat
  peer : Peer
deriving DecidableEq

/-- The `for peer := range peerList` loop of both closures, from index `i` on: a slot that is
not nil gets one `go` statement, a nil slot is passed over. -/
def rangeDispatch (op : PeerOp) : Nat → List (Option Peer) → List Dispatch → List Dispatch
  | _, [], log => log
  | i, slot :: rest, log =>
    match slot with
    | some p => rangeDispatch op (i + 1) rest (log ++ [⟨op, i, p⟩])
    | none => rangeDispatch op (i + 1) rest log

/-- The closure `heartbeatRemoteNodes` hands to `executeRepeatedly`. -/
def heartbeatAction (peerList : List (Option Peer)) (log : List Dispatch) : List Dispatch :=
  rangeDispatch PeerOp.TestConnection 0 peerList log

/-- The closure `getRemoteBloomFilters` hands to `executeRepeatedly`. -/
def bloomFilterAction (peerList : List (Option Peer)) (log : List Dispatch) : List Dispatch :=
  rangeDispatch PeerOp.GetBloomFilter 0 peerList log

/-- Function `heartbeatRemoteNodes(peerList, interval)`; both channels are nil. -/
def heartbeatRemoteNodes (peerList : List (Option Peer)) (interval : Int)
    (log : List Dispatch) (fuel : Nat) : RunResult (List Dispatch) :=
  executeRepeatedly interval (heartbeatAction peerList) none none log fuel

/-- Function `getRemoteBloomFilters(peerList, interval)`; both channels are nil. -/
def getRemoteBloomFilters (peerList : List (Option Peer)) (interval : Int)
    (log : List Dispatch) (fuel : Nat) : RunResult (List Dispatch) :=
  executeRepeatedly interval (bloomFilterAction peerList) none none log fuel

/-- A started goroutine: the function it runs and the arguments evaluated at the `go`. -/
inductive Goroutine
  | heartbeatRemoteNodes (peerList : List (Option Peer)) (interval : Int)
  | getRemoteBloomFilters (peerList : List (Option Peer)) (interval : Int)
deriving DecidableEq

/-- Running a goroutine for `fuel` iterations of its loop. -/
def Goroutine.run (g : Goroutine) (log : List Dispatch) (fuel : Nat) :
    RunResult (List Dispatch) :=
  match g with
  | Goroutine.heartbeatRemoteNodes pl d => Olivia.heartbeatRemoteNodes pl d log fuel
  | Goroutine.getRemoteBloomFilters pl d => Olivia.getRemoteBloomFilters pl d log fuel

/-- Function `Heartbeat(heartbeatInterval, cycleDuration, peerList)`: its four `go` statements,
in order. -/
def Heartbeat (heartbeatInterval cycleDuration : Int) (peerList : PeerList) : List Goroutine :=
  [Goroutine.heartbeatRemoteNodes peerList.Peers heartbeatInterval,
   Goroutine.heartbeatRemoteNodes peerList.BackupPeers cycleDuration,
   Goroutine.getRemoteBloomFilters peerList.Peers cycleDuration,
   Goroutine.getRemoteBloomFilters peerList.BackupPeers cycleDuration]

/-- What `StartIncomingNetwork` does, in order: `dht.NewPeerByIP`, `ConnectAllPeers` (with the
registry it is called on), `log.Println`, `time.Sleep`, a `go` statement of `Heartbeat`,
`StartNetworkRouter` (with the registry it is given), a send on the router's stop channel. -/
inductive Event
  | newPeerByIP (ip : String)
  | connectAllPeers (receiver : PeerList)
  | logPrintln (msg : String)
  | sleep (d : Int)
  | go (g : Goroutine)
  | startNetworkRouter (peerList : PeerList)
  | routerStopSend
deriving DecidableEq

/-- How a run of `StartIncomingNetwork` stands: it returned, it is still looping after the
unrolled iterations, or it panicked. -/
inductive Status
  | returned
  | running
  | panicked
deriving DecidableEq

/-- Result of a run: its status, its trace and the registry. -/
structure Outcome where
  status : Status
  trace : List Event
  peerList : PeerList
deriving DecidableEq

/-- What the surroundings of `StartIncomingNetwork` supply: the registry `dht.NewPeerList`
returns, whether the i-th call of `ConnectAllPeers` returns an error and what it does to the
registry, and whether a receive from `mainStopChan` can proceed at the i-th `select`. -/
structure Env where
  NewPeerList : PeerList
  connectErr : Nat → Bool
  connectEffect : Nat → PeerList → PeerList
  mainStopReady : Nat → Bool

/-- The `for index, peerIP := range config.RemotePeers` loop, from `index` on. The flag is
false when the indexed store `peerList.Peers[index] = peer` panicked. -/
def populatePeers : Nat → List String → PeerList → List Event → Bool × PeerList × List Event
  | _, [], pl, tr => (true, pl, tr)
  | index, peerIP :: rest, pl, tr =>
    let peer : Peer := ⟨peerIP⟩
    let tr1 := tr ++ [Event.newPeerByIP peerIP]
    if index < pl.Peers.length then
      let pl1 : PeerList := { pl with Peers := pl.Peers.set index (some peer) }
      populatePeers (index + 1) rest { pl1 with PeerMap := mapStore pl1.PeerMap peerIP true } tr1
    else (false, pl, tr1)

/-- The `for err != nil` loop. `calls` is the number of `ConnectAllPeers` calls made so far and
`err` whether the last one failed. The flag is false when `fuel` ran out while retrying. -/
def connectRetry (env : Env) : Nat → Nat → Bool → PeerList → List Event →
    Bool × PeerList × List Event
  | _, _, false, pl, tr => (true, pl, tr)
  | 0, _, true, pl, tr => (false, pl, tr)
  | fuel + 1, calls, true, pl, tr =>
    connectRetry env fuel (calls + 1) (env.connectErr calls) (env.connectEffect calls pl)
      (tr ++ [Event.logPrintln "Sleeping for 60 seconds and attempting to reconnect",
              Event.sleep (Second * 60), Event.connectAllPeers pl])

/-- The final `for { select { ... } }`. `i` counts the `select`s done so far. The `break` of the
stop case leaves the `select`, so the loop goes on after the send, as it does after the
`continue` of the default case. -/
def controlLoop (env : Env) : Nat → Nat → List Event → Status × List Event
  | 0, _, tr => (Status.running, tr)
  | fuel + 1, i, tr =>
    if env.mainStopReady i then controlLoop env fuel (i + 1) (tr ++ [Event.routerStopSend])
    else controlLoop env fuel (i + 1) tr

/-- Function `StartIncomingNetwork(mh, cache, config, mainStopChan)`. `fuel` bounds the
iterations unrolled of each of its two unbounded loops. -/
def StartIncomingNetwork (env : Env) (config : Cfg) (fuel : Nat) : Outcome :=
  let peerList := env.NewPeerList
  if !config.BaseNode then
    match populatePeers 0 config.RemotePeers peerList [] with
    | (false, pl, tr) => ⟨Status.panicked, tr, pl⟩
    | (true, pl, tr) =>
      match connectRetry env fuel 1 (env.connectErr 0) (env.connectEffect 0 pl)
          (tr ++ [Event.connectAllPeers pl]) with
      | (false, pl1, tr1) => ⟨Status.running, tr1, pl1⟩
      | (true, pl1, tr1) =>
        let tr2 := tr1 ++ (Heartbeat (wrapInt64 (config.HeartbeatInterval * Millisecond))
          (wrapInt64 (config.HeartbeatLoop * Second)) pl1).map Event.go
        let r := controlLoop env fuel 0 (tr2 ++ [Event.startNetworkRouter pl1])
        ⟨r.1, r.2, pl1⟩
  else
    let r := controlLoop env fuel 0 [Event.startNetworkRouter peerList]
    ⟨r.1, r.2, peerList⟩

/-! ### Reading traces -/

/-- Events of one completed iteration of the runner. -/
def roundEvents (d : Int) (notify : Bool) : List RunnerEvent :=
  [RunnerEvent.stopCheck false, RunnerEvent.sleep d, RunnerEvent.call]
    ++ (if notify then [RunnerEvent.send 1] else [])

/-- Events of `n` completed iterations of the runner. -/
def rounds (d : Int) (notify : Bool) (n : Nat) : List RunnerEvent :=
  (List.replicate n (roundEvents d notify)).flatten

/-- Number of invocations of the action in a trace. -/
def callCount (tr : List RunnerEvent) : Nat := tr.count RunnerEvent.call

/-- Number of completion notifications in a trace. -/
def sendCount (tr : List RunnerEvent) : Nat :=
  tr.countP (fun e => match e with | RunnerEvent.send _ => true | _ => false)

/-- Sum of the values passed back on the completion channel. -/
def sendTotal (tr : List RunnerEvent) : Int :=
  (tr.map (fun e => match e with | RunnerEvent.send v => v | _ => 0)).sum

/-- Number of sleeps of duration `d` in a trace. -/
def sleepCount (d : Int) (tr : List RunnerEvent) : Nat := tr.count (RunnerEvent.sleep d)

def Event.isSleep : Event → Bool
  | Event.sleep _ => true
  | _ => false

def Event.isConnect : Event → Bool
  | Event.connectAllPeers _ => true
  | _ => false

def Event.isGo : Event → Bool
  | Event.go _ => true
  | _ => false

def Event.isRouterStart : Event → Bool
  | Event.startNetworkRouter _ => true
  | _ => false

def Event.isNewPeer : Event → Bool
  | Event.newPeerByIP _ => true
  | _ => false

/-- The connect phase was entered with the registry populated: the trace starts with one
`NewPeerByIP` per configured address, in order, and the first `ConnectAllPeers` is called on a
registry whose primary slot `i` holds the peer of `RemotePeers[i]` and whose map marks every
configured address. -/
def PopulatedBeforeConnect (config : Cfg) (out : Outcome) : Prop :=
  ∃ pl rest,
    out.trace = config.RemotePeers.map Event.newPeerByIP ++ Event.connectAllPeers pl :: rest
    ∧ (∀ i, i < config.RemotePeers.length →
        pl.Peers[i]? = (config.RemotePeers[i]?).map (fun a => some (Peer.mk a)))
    ∧ (∀ a ∈ config.RemotePeers, mapLookup pl.PeerMap a = some true)

/-! ### Concrete inputs -/

/-- A registry with three primary slots, two backup slots and an empty map. -/
def emptyRegistry : PeerList := ⟨[none, none, none], [none, none], []⟩

/-- Surroundings in which `ConnectAllPeers` fails twice and then succeeds, and the shutdown
signal can be received at the second `select`. -/
def twoFailuresEnv : Env :=
  ⟨emptyRegistry, fun i => decide (i < 2), fun _ pl => pl, fun i => decide (i = 1)⟩

/-- Surroundings in which the shutdown signal can be received at the first `select` only. -/
def shutdownEnv : Env :=
  ⟨emptyRegistry, fun _ => false, fun _ pl => pl, fun i => decide (i = 0)⟩

/-- A non-base node with two remote peers. -/
def twoPeersCfg : Cfg := ⟨false, ["10.0.0.1:5454", "10.0.0.2:5454"], 1000, 1⟩

/-- A non-base node with four remote peers. -/
def fourPeersCfg : Cfg :=
  ⟨false, ["10.0.0.1:5454", "10.0.0.2:5454", "10.0.0.3:5454", "10.0.0.4:5454"], 1000, 1⟩

/-- A base node. -/
def baseCfg : Cfg := ⟨true, [], 1000, 1⟩

/-- A stop channel on which a receive can always proceed. -/
def firedStop : StopChan := ⟨fun _ => true⟩

/-- A completion channel every send on which is received. -/
def drainedResp : RespChan := ⟨fun _ => true⟩

/-- A peer set with two peers and two nil slots. -/
def sparsePeers : List (Option Peer) := [none, some ⟨"10.0.0.1:5454"⟩, none, some ⟨"10.0.0.2:5454"⟩]

/-! ## Auxiliary lemmas -/

theorem toDigitsCore_eq (fuel : Nat) : ∀ (n : Nat) (ds : List Char), 0 < n → n < fuel →
    Nat.toDigitsCore 10 fuel n ds = (Nat.digits 10 n).reverse.map Nat.digitChar ++ ds := by
  induction fuel with
  | zero => intro n ds _ h; omega
  | succ fuel ih =>
    intro n ds hn hf
    rw [Nat.toDigitsCore]
    rw [Nat.digits_def' (by decide) hn]
    by_cases h0 : n / 10 = 0
    · simp [h0]
    · rw [if_neg h0, ih (n / 10) _ (Nat.pos_of_ne_zero h0) (by omega)]
      simp

theorem toDigits_eq_decimalString (n : Nat) : Nat.toDigits 10 n = decimalString n := by
  unfold decimalString
  by_cases h : n = 0
  · subst h; rfl
  · rw [if_neg h, Nat.toDigits, toDigitsCore_eq (n + 1) n [] (Nat.pos_of_ne_zero h) (by omega)]
    simp

theorem digitChar_isDigit (k : Nat) (h : k < 10) : (Nat.digitChar k).isDigit = true := by
  interval_cases k <;> decide

theorem digitValue_digitChar (k : Nat) (h : k < 10) : digitValue (Nat.digitChar k) = k := by
  interval_cases k <;> decide

theorem decimalString_isDigit (n : Nat) : ∀ c ∈ decimalString n, c.isDigit = true := by
  intro c hc
  unfold decimalString at hc
  split at hc
  · simp at hc; subst hc; decide
  · simp only [List.mem_map, List.mem_reverse] at hc
    obtain ⟨k, hk, rfl⟩ := hc
    exact digitChar_isDigit k (Nat.digits_lt_base (by decide) hk)

theorem decimalString_ne_nil (n : Nat) : decimalString n ≠ [] := by
  unfold decimalString
  split
  · simp
  · rename_i h
    simp [Nat.digits_ne_nil_iff_ne_zero, h]

theorem decimalValue_decimalString (n : Nat) : decimalValue (decimalString n) = n := by
  unfold decimalString decimalValue
  split
  · rename_i h; subst h; decide
  · rw [← List.map_reverse, List.reverse_reverse, List.map_map]
    have : (Nat.digits 10 n).map (digitValue ∘ Nat.digitChar) = Nat.digits 10 n := by
      conv_rhs => rw [← List.map_id (Nat.digits 10 n)]
      apply List.map_congr_left
      intro k hk
      exact digitValue_digitChar k (Nat.digits_lt_base (by decide) hk)
    rw [this, Nat.ofDigits_digits]

theorem writeOutputChars_eq (acc : List Char) (s : Char) (n : Nat) :
    writeOutputChars acc s n = acc ++ runToken s n := by
  unfold writeOutputChars runToken
  by_cases h : n = 1
  · simp [h]
  · simp [h, toDigits_eq_decimalString]

theorem consRun_consRun_same (c : Char) (n : Nat) (rs : List (Char × Nat)) :
    consRun c n (consRun c 1 rs) = consRun c (n + 1) rs := by
  cases rs with
  | nil => simp [consRun, Nat.add_comm]
  | cons r rs =>
    obtain ⟨d, m⟩ := r
    by_cases h : c = d
    · subst h; simp [consRun]; omega
    · simp [consRun, h, Nat.add_comm]

theorem consRun_consRun_ne (c d : Char) (n : Nat) (h : d ≠ c) (rs : List (Char × Nat)) :
    consRun c n (consRun d 1 rs) = (c, n) :: consRun d 1 rs := by
  cases rs with
  | nil => simp [consRun, Ne.symm h]
  | cons r rs =>
    obtain ⟨e, m⟩ := r
    by_cases hd : d = e
    · subst hd; simp [consRun, Ne.symm h]
    · simp [consRun, hd, Ne.symm h]

theorem encodeLoop_eq (rest : List Char) : ∀ (cur : Char) (n : Nat) (acc : List Char),
    encodeLoop cur n acc rest
      = acc ++ (consRun cur n (runs rest)).flatMap (fun r => runToken r.1 r.2) := by
  induction rest with
  | nil => intro cur n acc; simp [encodeLoop, runs, consRun, writeOutputChars_eq]
  | cons c rest ih =>
    intro cur n acc
    rw [encodeLoop]
    by_cases h : c = cur
    · subst h
      rw [if_pos rfl, ih, runs, consRun_consRun_same]
    · rw [if_neg h, ih, runs, consRun_consRun_ne cur c n h, writeOutputChars_eq]
      simp

theorem encodeChars_eq (x : List Char) :
    encodeChars x = (runs x).flatMap (fun r => runToken r.1 r.2) := by
  cases x with
  | nil => rfl
  | cons c rest => rw [encodeChars, encodeLoop_eq, runs]; simp

theorem expandRuns_consRun (c : Char) (n : Nat) (rs : List (Char × Nat)) :
    expandRuns (consRun c n rs) = List.replicate n c ++ expandRuns rs := by
  cases rs with
  | nil => simp [consRun, expandRuns]
  | cons r rs =>
    obtain ⟨d, m⟩ := r
    by_cases h : c = d
    · subst h
      simp only [consRun, if_true, expandRuns, List.flatMap_cons]
      rw [Nat.add_comm, List.replicate_add, List.append_assoc]
    · simp [consRun, h, expandRuns]

theorem expandRuns_runs (x : List Char) : expandRuns (runs x) = x := by
  induction x with
  | nil => rfl
  | cons c cs ih => rw [runs, expandRuns_consRun, ih]; rfl

theorem runs_chain (x : List Char) : (runs x).Chain' (fun a b => a.1 ≠ b.1) := by
  induction x with
  | nil => simp [runs]
  | cons c cs ih =>
    rw [runs]
    cases hrs : runs cs with
    | nil => simp [consRun]
    | cons r rs =>
      obtain ⟨d, m⟩ := r
      rw [hrs] at ih
      by_cases h : c = d
      · subst h
        simp only [consRun, if_true]
        cases rs with
        | nil => simp
        | cons r2 rs2 =>
          simp only [List.chain'_cons] at ih ⊢
          exact ih
      · simp only [consRun, if_neg h, List.chain'_cons]
        exact ⟨h, ih⟩

theorem runs_pos (x : List Char) : ∀ r ∈ runs x, 1 ≤ r.2 := by
  induction x with
  | nil => simp [runs]
  | cons c cs ih =>
    rw [runs]
    cases hrs : runs cs with
    | nil => simp [consRun]
    | cons r rs =>
      obtain ⟨d, m⟩ := r
      rw [hrs] at ih
      by_cases h : c = d
      · subst h
        simp only [consRun, if_true]
        intro r hr
        simp only [List.mem_cons] at hr
        rcases hr with rfl | hr
        · simp
        · exact ih r (List.mem_cons_of_mem _ hr)
      · simp only [consRun, if_neg h]
        intro r hr
        simp only [List.mem_cons] at hr
        rcases hr with rfl | hr
        · simp
        · exact ih r (by simpa using hr)

theorem runs_symbol_mem (x : List Char) : ∀ r ∈ runs x, r.1 ∈ x := by
  intro r hr
  have h := expandRuns_runs x
  have hpos := runs_pos x r hr
  rw [← h]
  simp only [expandRuns, List.mem_flatMap]
  refine ⟨r, hr, ?_⟩
  simp [List.mem_replicate]
  omega

theorem consRun_consRun_add (c : Char) (a b : Nat) (rs : List (Char × Nat)) :
    consRun c a (consRun c b rs) = consRun c (b + a) rs := by
  cases rs with
  | nil => simp [consRun]
  | cons r rs =>
    obtain ⟨d, m⟩ := r
    by_cases h : c = d
    · subst h; simp [consRun]; omega
    · simp [consRun, h]

theorem runs_replicate_append (s : Char) (n : Nat) (y : List Char) :
    runs (List.replicate (n + 1) s ++ y) = consRun s (n + 1) (runs y) := by
  induction n with
  | zero => rfl
  | succ n ih =>
    rw [List.replicate_succ, List.cons_append, runs, ih, consRun_consRun_add]

theorem runs_unique (rs : List (Char × Nat)) (hchain : rs.Chain' (fun a b => a.1 ≠ b.1))
    (hpos : ∀ r ∈ rs, 1 ≤ r.2) : runs (expandRuns rs) = rs := by
  induction rs with
  | nil => rfl
  | cons r rs ih =>
    obtain ⟨s, n⟩ := r
    have hn : 1 ≤ n := hpos (s, n) (List.mem_cons_self _ _)
    obtain ⟨k, rfl⟩ : ∃ k, n = k + 1 := ⟨n - 1, by omega⟩
    have ih2 := ih hchain.tail (fun r hr => hpos r (List.mem_cons_of_mem _ hr))
    have : expandRuns ((s, k + 1) :: rs) = List.replicate (k + 1) s ++ expandRuns rs := by
      simp [expandRuns]
    rw [this, runs_replicate_append, ih2]
    cases rs with
    | nil => rfl
    | cons r2 rs2 =>
      obtain ⟨d, m⟩ := r2
      have hne : s ≠ d := by
        have := hchain
        simp only [List.chain'_cons] at this
        exact this.1
      simp [consRun, hne]

theorem decodeLoop_digits (ds : List Char) : ∀ (cur : Char) (count : Option Nat)
    (acc rest : List Char), (∀ c ∈ ds, c.isDigit = true) →
    decodeLoop cur count acc (ds ++ rest) = decodeLoop cur (pendingCount count ds) acc rest := by
  induction ds with
  | nil => intro cur count acc rest _; rfl
  | cons d ds ih =>
    intro cur count acc rest h
    have hd : d.isDigit = true := h d (List.mem_cons_self _ _)
    rw [List.cons_append, decodeLoop, if_pos hd, ih _ _ _ _ (fun c hc => h c (List.mem_cons_of_mem _ hc))]
    rfl

theorem foldl_digits (ds : List Char) : ∀ a : Nat,
    pendingCount (some a) ds = some (a * 10 ^ ds.length + decimalValue ds) := by
  induction ds with
  | nil => intro a; simp [pendingCount, decimalValue]
  | cons d ds ih =>
    intro a
    have h1 : pendingCount (some a) (d :: ds) = pendingCount (some (a * 10 + digitValue d)) ds := rfl
    rw [h1, ih]
    have h2 : decimalValue (d :: ds) = decimalValue ds + 10 ^ ds.length * digitValue d := by
      simp [decimalValue, Nat.ofDigits_append]
    rw [h2]
    simp only [List.length_cons, pow_succ]
    congr 1
    ring

theorem pendingCount_none (ds : List Char) :
    (pendingCount none ds).getD 1 = if ds = [] then 1 else decimalValue ds := by
  cases ds with
  | nil => rfl
  | cons d ds =>
    have h1 : pendingCount none (d :: ds) = pendingCount (some (digitValue d)) ds := by
      simp [pendingCount]
    have h2 : decimalValue (d :: ds) = decimalValue ds + 10 ^ ds.length * digitValue d := by
      simp [decimalValue, Nat.ofDigits_append]
    rw [h1, foldl_digits, h2]
    simp
    ring

theorem decodeLoop_tokens (ts : List Token) : ∀ (cur : Char) (ds acc : List Char),
    (∀ c ∈ ds, c.isDigit = true) → (∀ t ∈ ts, t.wellFormed) →
    decodeLoop cur none acc (ds ++ ts.flatMap Token.render)
      = acc ++ (Token.mk cur ds).expand ++ ts.flatMap Token.expand := by
  induction ts with
  | nil =>
    intro cur ds acc hds _
    rw [decodeLoop_digits ds cur none acc _ hds]
    simp [decodeLoop, pendingCount_none, Token.expand, Token.count]
  | cons t ts ih =>
    intro cur ds acc hds hts
    have ht : t.wellFormed := hts t (List.mem_cons_self _ _)
    rw [decodeLoop_digits ds cur none acc _ hds]
    simp only [List.flatMap_cons, Token.render, List.cons_append]
    rw [decodeLoop, if_neg (by simp [ht.1]), ih t.symbol t.digits _ ht.2
      (fun t ht => hts t (List.mem_cons_of_mem _ ht))]
    simp [pendingCount_none, Token.expand, Token.count]

theorem decodeChars_tokens (ts : List Token) (h : ∀ t ∈ ts, t.wellFormed) :
    decodeChars (ts.flatMap Token.render) = ts.flatMap Token.expand := by
  cases ts with
  | nil => rfl
  | cons t ts =>
    simp only [List.flatMap_cons, Token.render, List.cons_append]
    rw [decodeChars, decodeLoop_tokens ts t.symbol t.digits [] (h t (List.mem_cons_self _ _)).2
      (fun t ht => h t (List.mem_cons_of_mem _ ht))]
    simp

theorem runToToken_render (r : Char × Nat) : (runToToken r).render = runToken r.1 r.2 := by
  unfold runToToken Token.render runToken
  split <;> simp

theorem runToToken_expand (r : Char × Nat) : (runToToken r).expand = List.replicate r.2 r.1 := by
  unfold runToToken Token.expand Token.count
  by_cases h : r.2 = 1
  · simp [h]
  · simp [h, decimalString_ne_nil, decimalValue_decimalString]

theorem decode_encode_chars (x : List Char) (h : ∀ c ∈ x, c.isDigit = false) :
    decodeChars (encodeChars x) = x := by
  have h1 : encodeChars x = ((runs x).map runToToken).flatMap Token.render := by
    rw [encodeChars_eq, List.flatMap_map]
    congr 1
    funext r
    exact (runToToken_render r).symm
  rw [h1, decodeChars_tokens]
  · rw [List.flatMap_map]
    have : (fun r => (runToToken r).expand) = (fun r : Char × Nat => List.replicate r.2 r.1) := by
      funext r; exact runToToken_expand r
    rw [this]
    exact expandRuns_runs x
  · intro t ht
    simp only [List.mem_map] at ht
    obtain ⟨r, hr, rfl⟩ := ht
    refine ⟨h _ (runs_symbol_mem x r hr), ?_⟩
    intro c hc
    unfold runToToken at hc
    simp only at hc
    split at hc
    · simp at hc
    · exact decimalString_isDigit _ c hc

theorem rounds_succ (d : Int) (notify : Bool) (n : Nat) :
    rounds d notify (n + 1) = roundEvents d notify ++ rounds d notify n := by
  simp [rounds, List.replicate_succ]

theorem executeLoop_stops {σ : Type} (d : Int) (f : σ → σ) (stop : Option StopChan)
    (resp : Option RespChan) (n : Nat) : ∀ (fuel i : Nat) (s : σ) (tr : List RunnerEvent),
    n < fuel → (∀ j, j < n → stopReady stop (i + j) = false) → stopReady stop (i + n) = true →
    (∀ ch, resp = some ch → ∀ j, j < n → ch.consumed (i + j) = true) →
    executeLoop d f stop resp fuel i s tr
      = ⟨RunStatus.returned, tr ++ rounds d resp.isSome n ++ [RunnerEvent.stopCheck true],
          f^[n] s⟩ := by
  induction n with
  | zero =>
    intro fuel i s tr hf _ hstop _
    obtain ⟨fuel, rfl⟩ : ∃ m, fuel = m + 1 := ⟨fuel - 1, by omega⟩
    simp only [Nat.add_zero] at hstop
    simp [executeLoop, hstop, rounds]
  | succ n ih =>
    intro fuel i s tr hf hbefore hstop hcons
    obtain ⟨fuel, rfl⟩ : ∃ m, fuel = m + 1 := ⟨fuel - 1, by omega⟩
    have h0 : stopReady stop i = false := by simpa using hbefore 0 (by omega)
    have hb : ∀ j, j < n → stopReady stop (i + 1 + j) = false := fun j hj => by
      have := hbefore (j + 1) (by omega)
      rwa [show i + (j + 1) = i + 1 + j by omega] at this
    have hs : stopReady stop (i + 1 + n) = true := by
      rwa [show i + (n + 1) = i + 1 + n by omega] at hstop
    rw [executeLoop]
    simp only [h0, Bool.false_eq_true, if_false]
    cases resp with
    | none =>
      simp only
      rw [ih fuel (i + 1) (f s) _ (by omega) hb hs (fun ch h => by cases h)]
      simp [rounds_succ, roundEvents, Function.iterate_succ_apply]
    | some ch =>
      have hc0 : ch.consumed i = true := by simpa using hcons ch rfl 0 (by omega)
      have hc : ∀ ch2, some ch = some ch2 → ∀ j, j < n → ch2.consumed (i + 1 + j) = true := by
        intro ch2 h j hj
        have := hcons ch2 h (j + 1) (by omega)
        rwa [show i + (j + 1) = i + 1 + j by omega] at this
      simp only [hc0, if_true]
      rw [ih fuel (i + 1) (f s) _ (by omega) hb hs hc]
      simp [rounds_succ, roundEvents, Function.iterate_succ_apply]

theorem executeLoop_structure {σ : Type} (d : Int) (f : σ → σ) (stop : Option StopChan)
    (resp : Option RespChan) (hcons : ∀ ch, resp = some ch → ∀ j, ch.consumed j = true)
    (fuel : Nat) : ∀ (i : Nat) (s : σ) (tr : List RunnerEvent),
    ∃ n, n ≤ fuel ∧
      (executeLoop d f stop resp fuel i s tr).trace
        = tr ++ rounds d resp.isSome n
          ++ (if (executeLoop d f stop resp fuel i s tr).status = RunStatus.returned
              then [RunnerEvent.stopCheck true] else [])
      ∧ (executeLoop d f stop resp fuel i s tr).status ≠ RunStatus.blocked
      ∧ ((executeLoop d f stop resp fuel i s tr).status = RunStatus.running → n = fuel)
      ∧ (executeLoop d f stop resp fuel i s tr).state = f^[n] s := by
  induction fuel with
  | zero => intro i s tr; exact ⟨0, by simp [executeLoop, rounds]⟩
  | succ fuel ih =>
    intro i s tr
    rw [executeLoop]
    by_cases h0 : stopReady stop i = true
    · simp only [h0, if_true]
      exact ⟨0, by simp [rounds]⟩
    · have h0f : stopReady stop i = false := by simpa using h0
      simp only [h0f, Bool.false_eq_true, if_false]
      cases resp with
      | none =>
        simp only
        obtain ⟨n, hn, htr, hst, hrun, hs⟩ := ih (i + 1) (f s)
          (tr ++ [RunnerEvent.stopCheck false, RunnerEvent.sleep d, RunnerEvent.call])
        refine ⟨n + 1, by omega, ?_, hst, fun h => by rw [hrun h], ?_⟩
        · rw [htr]; simp [rounds_succ, roundEvents]
        · rw [hs, Function.iterate_succ_apply]
      | some ch =>
        have hc0 : ch.consumed i = true := hcons ch rfl i
        simp only [hc0, if_true]
        obtain ⟨n, hn, htr, hst, hrun, hs⟩ := ih (i + 1) (f s)
          (tr ++ [RunnerEvent.stopCheck false, RunnerEvent.sleep d, RunnerEvent.call]
            ++ [RunnerEvent.send 1])
        refine ⟨n + 1, by omega, ?_, hst, fun h => by rw [hrun h], ?_⟩
        · rw [htr]; simp [rounds_succ, roundEvents]
        · rw [hs, Function.iterate_succ_apply]

theorem callCount_rounds (d : Int) (notify : Bool) (n : Nat) :
    callCount (rounds d notify n) = n := by
  induction n with
  | zero => rfl
  | succ n ih =>
    rw [rounds_succ]
    unfold callCount at ih ⊢
    rw [List.count_append, ih]
    cases notify <;> simp [roundEvents, List.count_cons] <;> omega

theorem sendCount_rounds (d : Int) (notify : Bool) (n : Nat) :
    sendCount (rounds d notify n) = if notify then n else 0 := by
  induction n with
  | zero => cases notify <;> rfl
  | succ n ih =>
    rw [rounds_succ]
    unfold sendCount at ih ⊢
    rw [List.countP_append, ih]
    cases notify <;> simp [roundEvents, List.countP_cons]; omega

theorem sendTotal_rounds (d : Int) (notify : Bool) (n : Nat) :
    sendTotal (rounds d notify n) = if notify then (n : Int) else 0 := by
  induction n with
  | zero => cases notify <;> rfl
  | succ n ih =>
    rw [rounds_succ]
    unfold sendTotal at ih ⊢
    rw [List.map_append, List.sum_append, ih]
    cases notify <;> simp [roundEvents]
    omega

theorem rounds_split_balanced (d : Int) (tail : List RunnerEvent)
    (htail : tail = [] ∨ tail = [RunnerEvent.stopCheck true]) (n : Nat) :
    ∀ (p q : List RunnerEvent) (b : Bool),
      rounds d true n ++ tail = p ++ RunnerEvent.stopCheck b :: q → sendCount p = callCount p := by
  induction n with
  | zero =>
    intro p q b h
    rcases htail with rfl | rfl
    · simp [rounds] at h
    · rcases p with _ | ⟨e, p⟩
      · rfl
      · simp [rounds] at h
  | succ n ih =>
    intro p q b h
    rw [rounds_succ] at h
    rcases p with _ | ⟨e1, _ | ⟨e2, _ | ⟨e3, _ | ⟨e4, p⟩⟩⟩⟩
    · rfl
    · simp [roundEvents] at h
    · simp [roundEvents] at h
    · simp [roundEvents] at h
    · simp only [roundEvents, if_true, List.cons_append, List.nil_append, List.cons.injEq] at h
      obtain ⟨rfl, rfl, rfl, rfl, h⟩ := h
      have := ih p q b h
      simp [sendCount, callCount, List.countP_cons, List.count_cons] at this ⊢
      exact this

theorem no_send_rounds (d : Int) (n : Nat) :
    ∀ e ∈ rounds d false n, ∀ v, e ≠ RunnerEvent.send v := by
  induction n with
  | zero => intro e he; simp [rounds] at he
  | succ n ih =>
    intro e he v
    rw [rounds_succ, List.mem_append] at he
    rcases he with he | he
    · simp [roundEvents] at he
      rcases he with rfl | rfl | rfl <;> simp
    · exact ih e he v

theorem rangeDispatch_log (op : PeerOp) (l : List (Option Peer)) :
    ∀ (i : Nat) (log : List Dispatch),
      rangeDispatch op i l log = log ++ rangeDispatch op i l [] := by
  induction l with
  | nil => intro i log; simp [rangeDispatch]
  | cons slot rest ih =>
    intro i log
    cases slot with
    | none => simp only [rangeDispatch]; exact ih (i + 1) log
    | some p =>
      simp only [rangeDispatch]
      rw [ih (i + 1) (log ++ [Dispatch.mk op i p]), ih (i + 1) ([] ++ [Dispatch.mk op i p])]
      simp

theorem rangeDispatch_mem (op : PeerOp) (l : List (Option Peer)) :
    ∀ (i : Nat), ∀ x ∈ rangeDispatch op i l [],
      x.op = op ∧ i ≤ x.slot ∧ l[x.slot - i]? = some (some x.peer) := by
  induction l with
  | nil => intro i x hx; simp [rangeDispatch] at hx
  | cons slot rest ih =>
    intro i x hx
    have key : ∀ x ∈ rangeDispatch op (i + 1) rest [],
        x.op = op ∧ i ≤ x.slot ∧ (slot :: rest)[x.slot - i]? = some (some x.peer) := by
      intro x hx
      obtain ⟨h1, h2, h3⟩ := ih (i + 1) x hx
      refine ⟨h1, by omega, ?_⟩
      rw [show x.slot - i = (x.slot - (i + 1)) + 1 by omega, List.getElem?_cons_succ]
      exact h3
    cases slot with
    | none =>
      simp only [rangeDispatch] at hx
      exact key x hx
    | some p =>
      simp only [rangeDispatch] at hx
      rw [rangeDispatch_log, List.mem_append] at hx
      rcases hx with hx | hx
      · simp at hx
        subst hx
        simp
      · exact key x hx

theorem rangeDispatch_count (op : PeerOp) (l : List (Option Peer)) :
    ∀ (i j : Nat) (p : Peer), l[j]? = some (some p) →
      (rangeDispatch op i l []).count ⟨op, i + j, p⟩ = 1 := by
  induction l with
  | nil => intro i j p h; simp at h
  | cons slot rest ih =>
    intro i j p h
    have hrest : ∀ q : Peer, (rangeDispatch op (i + 1) rest []).count ⟨op, i, q⟩ = 0 := by
      intro q
      rw [List.count_eq_zero]
      intro hmem
      have := (rangeDispatch_mem op rest (i + 1) _ hmem).2.1
      simp at this
    cases j with
    | zero =>
      simp at h
      subst h
      simp only [rangeDispatch, Nat.add_zero]
      rw [rangeDispatch_log, List.count_append, hrest]
      simp
    | succ j =>
      rw [List.getElem?_cons_succ] at h
      have := ih (i + 1) j p h
      rw [show i + 1 + j = i + (j + 1) by omega] at this
      cases slot with
      | none => simp only [rangeDispatch]; exact this
      | some q =>
        simp only [rangeDispatch]
        rw [rangeDispatch_log, List.count_append, this]
        simp [List.count_cons]

theorem rangeDispatch_length (op : PeerOp) (l : List (Option Peer)) :
    ∀ (i : Nat), (rangeDispatch op i l []).length = (l.filter Option.isSome).length := by
  induction l with
  | nil => intro i; rfl
  | cons slot rest ih =>
    intro i
    cases slot with
    | none => simp only [rangeDispatch]; rw [ih]; simp
    | some q =>
      simp only [rangeDispatch]
      rw [rangeDispatch_log, List.length_append, ih]
      simp; omega

theorem iterate_rangeDispatch (op : PeerOp) (l : List (Option Peer)) (n : Nat) :
    ∀ log : List Dispatch, (rangeDispatch op 0 l)^[n] log
      = log ++ (List.replicate n (rangeDispatch op 0 l [])).flatten := by
  induction n with
  | zero => intro log; simp
  | succ n ih =>
    intro log
    rw [Function.iterate_succ_apply, ih, rangeDispatch_log]
    simp [List.replicate_succ]

theorem executeLoop_nil_nil {σ : Type} (d : Int) (f : σ → σ) (fuel : Nat) :
    ∀ (i : Nat) (s : σ) (tr : List RunnerEvent),
      executeLoop d f none none fuel i s tr
        = ⟨RunStatus.running, tr ++ rounds d false fuel, f^[fuel] s⟩ := by
  induction fuel with
  | zero => intro i s tr; simp [executeLoop, rounds]
  | succ fuel ih =>
    intro i s tr
    rw [executeLoop]
    simp only [stopReady, Bool.false_eq_true, if_false]
    rw [ih]
    simp [rounds_succ, roundEvents, Function.iterate_succ_apply]

theorem mapLookup_mapStore_same (m : List (String × Bool)) (k : String) (v : Bool) :
    mapLookup (mapStore m k v) k = some v := by
  simp [mapLookup, mapStore, List.lookup]

theorem lookup_filter_ne (m : List (String × Bool)) (k a : String) (h : a ≠ k) :
    (m.filter (fun e => e.1 != k)).lookup a = m.lookup a := by
  induction m with
  | nil => rfl
  | cons e m ih =>
    obtain ⟨x, y⟩ := e
    by_cases hx : x = k
    · subst hx
      have hax : (a == x) = false := by simpa using h
      simp [List.filter, List.lookup, hax, ih]
    · have hxk : (x != k) = true := by simpa using hx
      by_cases hax : a = x
      · subst hax; simp [List.filter, List.lookup, hxk]
      · have hax2 : (a == x) = false := by simpa using hax
        simp [List.filter, List.lookup, hax2, hxk, ih]

theorem mapLookup_mapStore_ne (m : List (String × Bool)) (k a : String) (v : Bool) (h : a ≠ k) :
    mapLookup (mapStore m k v) a = mapLookup m a := by
  have hak : (a == k) = false := by simpa using h
  simp only [mapLookup, mapStore, List.lookup, hak]
  exact lookup_filter_ne m k a h

theorem populatePeers_ok (rest : List String) :
    ∀ (index : Nat) (pl : PeerList) (tr : List Event),
      index + rest.length ≤ pl.Peers.length →
      ∃ pl2, populatePeers index rest pl tr = (true, pl2, tr ++ rest.map Event.newPeerByIP)
        ∧ pl2.BackupPeers = pl.BackupPeers
        ∧ pl2.Peers.length = pl.Peers.length
        ∧ (∀ j, j < rest.length → pl2.Peers[index + j]? = (rest[j]?).map (fun a => some ⟨a⟩))
        ∧ (∀ j, (j < index ∨ index + rest.length ≤ j) → pl2.Peers[j]? = pl.Peers[j]?)
        ∧ (∀ a ∈ rest, mapLookup pl2.PeerMap a = some true)
        ∧ (∀ a, a ∉ rest → mapLookup pl2.PeerMap a = mapLookup pl.PeerMap a) := by
  induction rest with
  | nil =>
    intro index pl tr _
    exact ⟨pl, by simp [populatePeers], rfl, rfl, by simp, by simp, by simp, by simp⟩
  | cons a rest ih =>
    intro index pl tr hlen
    simp only [List.length_cons] at hlen
    have hidx : index < pl.Peers.length := by omega
    rw [populatePeers]
    simp only [hidx, if_true]
    obtain ⟨pl2, heq, hb, hl, hslots, hframe, hmarked, hother⟩ :=
      ih (index + 1)
        { Peers := pl.Peers.set index (some ⟨a⟩), BackupPeers := pl.BackupPeers,
          PeerMap := mapStore pl.PeerMap a true }
        (tr ++ [Event.newPeerByIP a])
        (by simp only [List.length_set]; omega)
    refine ⟨pl2, ?_, hb, ?_, ?_, ?_, ?_, ?_⟩
    · rw [heq]; simp
    · rw [hl]; simp
    · intro j hj
      cases j with
      | zero =>
        rw [Nat.add_zero, hframe index (Or.inl (by omega))]
        simp [List.getElem?_set_self, hidx]
      | succ j =>
        have := hslots j (by simp at hj; omega)
        rw [show index + (j + 1) = index + 1 + j by omega, this]
        simp
    · intro j hj
      simp only [List.length_cons] at hj
      rw [hframe j (by omega)]
      exact List.getElem?_set_ne (by omega)
    · intro b hb
      by_cases hbr : b ∈ rest
      · exact hmarked b hbr
      · have hba : b = a := by simpa [hbr] using hb
        subst hba
        rw [hother b hbr, mapLookup_mapStore_same]
    · intro b hb
      simp only [List.mem_cons, not_or] at hb
      rw [hother b hb.2, mapLookup_mapStore_ne pl.PeerMap a b true hb.1]

theorem controlLoop_running (env : Env) (fuel : Nat) : ∀ (i : Nat) (tr : List Event),
    ∃ m, controlLoop env fuel i tr = (Status.running, tr ++ List.replicate m Event.routerStopSend)
      ∧ m = ((List.range fuel).filter (fun j => env.mainStopReady (i + j))).length := by
  induction fuel with
  | zero => intro i tr; exact ⟨0, by simp [controlLoop], by simp⟩
  | succ fuel ih =>
    intro i tr
    rw [controlLoop]
    have hrange : (List.filter (fun j => env.mainStopReady (i + j)) (List.range (fuel + 1))).length
        = (if env.mainStopReady i then 1 else 0)
          + (List.filter (fun j => env.mainStopReady (i + 1 + j)) (List.range fuel)).length := by
      rw [List.range_succ_eq_map, List.filter_cons, List.filter_map]
      have : ((fun j => env.mainStopReady (i + j)) ∘ Nat.succ)
          = (fun j => env.mainStopReady (i + 1 + j)) := by
        funext j; simp [Nat.succ_eq_add_one, Nat.add_assoc, Nat.add_comm 1 j]
      rw [this]
      by_cases h : env.mainStopReady i = true
      · simp [h]; omega
      · have hf : env.mainStopReady i = false := by simpa using h
        simp [hf]
    by_cases h : env.mainStopReady i = true
    · simp only [h, if_true]
      obtain ⟨m, hm, hcount⟩ := ih (i + 1) (tr ++ [Event.routerStopSend])
      refine ⟨m + 1, ?_, ?_⟩
      · rw [hm]; simp [List.replicate_succ]
      · rw [hrange, ← hcount]; simp [h]; omega
    · have hf : env.mainStopReady i = false := by simpa using h
      simp only [hf, Bool.false_eq_true, if_false]
      obtain ⟨m, hm, hcount⟩ := ih (i + 1) tr
      exact ⟨m, hm, by rw [hrange, ← hcount]; simp [hf]⟩

theorem connectRetry_ok (env : Env) (k : Nat) :
    ∀ (fuel c : Nat) (pl : PeerList) (tr : List Event), k ≤ fuel →
      (∀ j, j < k → env.connectErr (c + j) = true) → env.connectErr (c + k) = false →
      ∃ seg pl2, connectRetry env fuel (c + 1) (env.connectErr c) pl tr = (true, pl2, tr ++ seg)
        ∧ seg.countP Event.isSleep = k
        ∧ seg.countP Event.isConnect = k
        ∧ (∀ d, Event.sleep d ∈ seg → d = Second * 60)
        ∧ (∀ e ∈ seg, e.isGo = false ∧ e.isRouterStart = false ∧ e.isNewPeer = false) := by
  induction k with
  | zero =>
    intro fuel c pl tr _ _ hok
    simp only [Nat.add_zero] at hok
    refine ⟨[], pl, ?_, rfl, rfl, by simp, by simp⟩
    rw [hok]
    cases fuel <;> simp [connectRetry]
  | succ k ih =>
    intro fuel c pl tr hf hfail hok
    obtain ⟨fuel, rfl⟩ : ∃ m, fuel = m + 1 := ⟨fuel - 1, by omega⟩
    have h0 : env.connectErr c = true := by simpa using hfail 0 (by omega)
    rw [h0, connectRetry]
    obtain ⟨seg, pl2, heq, hs, hc, hd, hno⟩ := ih fuel (c + 1) (env.connectEffect (c + 1) pl)
      (tr ++ [Event.logPrintln "Sleeping for 60 seconds and attempting to reconnect",
              Event.sleep (Second * 60), Event.connectAllPeers pl]) (by omega)
      (fun j hj => by
        have := hfail (j + 1) (by omega)
        rwa [show c + (j + 1) = c + 1 + j by omega] at this)
      (by rwa [show c + (k + 1) = c + 1 + k by omega] at hok)
    refine ⟨[Event.logPrintln "Sleeping for 60 seconds and attempting to reconnect",
              Event.sleep (Second * 60), Event.connectAllPeers pl] ++ seg, pl2, ?_, ?_, ?_, ?_, ?_⟩
    · rw [heq]; simp
    · rw [List.countP_append, hs]; simp [List.countP_cons, Event.isSleep]; omega
    · rw [List.countP_append, hc]; simp [List.countP_cons, Event.isConnect]; omega
    · intro d hmem
      simp only [List.cons_append, List.nil_append, List.mem_cons] at hmem
      rcases hmem with h | h | h | h
      · cases h
      · cases h; rfl
      · cases h
      · exact hd d h
    · intro e hmem
      simp only [List.cons_append, List.nil_append, List.mem_cons] at hmem
      rcases hmem with h | h | h | h
      · subst h; simp [Event.isGo, Event.isRouterStart, Event.isNewPeer]
      · subst h; simp [Event.isGo, Event.isRouterStart, Event.isNewPeer]
      · subst h; simp [Event.isGo, Event.isRouterStart, Event.isNewPeer]
      · exact hno e h

theorem sleepCount_rounds (d : Int) (notify : Bool) (n : Nat) :
    sleepCount d (rounds d notify n) = n := by
  induction n with
  | zero => rfl
  | succ n ih =>
    rw [rounds_succ]
    unfold sleepCount at ih ⊢
    rw [List.count_append, ih]
    cases notify <;> simp [roundEvents, List.count_cons] <;> omega

theorem decimalString_head (n : Nat) (hn : 0 < n) : (decimalString n).head? ≠ some '0' := by
  have hne : Nat.digits 10 n ≠ [] := Nat.digits_ne_nil_iff_ne_zero.mpr (by omega)
  have hlast := Nat.getLast_digit_ne_zero 10 (m := n) (by omega)
  have hlt : (Nat.digits 10 n).getLast hne < 10 :=
    Nat.digits_lt_base (by decide) (List.getLast_mem hne)
  have hsplit := List.dropLast_append_getLast hne
  unfold decimalString
  rw [if_neg (by omega), ← hsplit]
  simp only [List.reverse_append, List.reverse_cons, List.reverse_nil, List.nil_append,
    List.singleton_append, List.map_cons, List.head?_cons]
  generalize (Nat.digits 10 n).getLast hne = k at hlast hlt
  interval_cases k <;> first | exact absurd rfl hlast | decide

theorem controlLoop_quiet (env : Env) (fuel : Nat) : ∀ (i : Nat) (tr : List Event),
    (∀ j, env.mainStopReady (i + j) = false) → controlLoop env fuel i tr = (Status.running, tr) := by
  induction fuel with
  | zero => intro i tr _; rfl
  | succ fuel ih =>
    intro i tr h
    have h0 : env.mainStopReady i = false := by simpa using h 0
    rw [controlLoop]
    simp only [h0, Bool.false_eq_true, if_false]
    exact ih (i + 1) tr (fun j => by
      have := h (j + 1)
      rwa [show i + (j + 1) = i + 1 + j by omega] at this)

theorem populatePeers_trace (rest : List String) :
    ∀ (index : Nat) (pl : PeerList) (tr : List Event),
      ∃ seg, (populatePeers index rest pl tr).2.2 = tr ++ seg
        ∧ ∀ e ∈ seg, e.isNewPeer = true := by
  induction rest with
  | nil => intro index pl tr; exact ⟨[], by simp [populatePeers], by simp⟩
  | cons a rest ih =>
    intro index pl tr
    rw [populatePeers]
    by_cases hidx : index < pl.Peers.length
    · simp only [hidx, if_true]
      obtain ⟨seg, hseg, hnew⟩ := ih (index + 1)
        { Peers := pl.Peers.set index (some ⟨a⟩), BackupPeers := pl.BackupPeers,
          PeerMap := mapStore pl.PeerMap a true }
        (tr ++ [Event.newPeerByIP a])
      refine ⟨Event.newPeerByIP a :: seg, by rw [hseg]; simp, ?_⟩
      intro e he
      rcases List.mem_cons.mp he with rfl | h
      · rfl
      · exact hnew e h
    · simp only [hidx, if_false]
      refine ⟨[Event.newPeerByIP a], rfl, ?_⟩
      intro e he
      rw [List.mem_singleton.mp he]
      rfl

/-! ## Claims -/

/-- Claim C1. For every string whose characters are all non-digit symbols, the empty string
included, decoding its encoding gives the string back. -/
theorem Decode_Encode_roundtrip (x : String) (h : ∀ c ∈ x.data, c.isDigit = false) :
    Decode (Encode x) = x := by
  unfold Decode Encode
  simp only [decode_encode_chars x.data h]

/-- The round trip on the string of `TestEncodeDecode`. -/
theorem Decode_Encode_roundtrip_witness :
    (∀ c ∈ "AAABBZZZZZTTT".data, c.isDigit = false)
      ∧ Decode (Encode "AAABBZZZZZTTT") = "AAABBZZZZZTTT" :=
  ⟨by decide, Decode_Encode_roundtrip "AAABBZZZZZTTT" (by decide)⟩

/-- Claim C2. For every input, `Encode` is the concatenation, in order and without delimiter, of
one token per maximal run: the run list expands to the input, neighbouring runs differ in their
symbol, every run has length at least 1, and no other run list has these three properties. The
token `writeOutput` appends for symbol `s` and count `n` is `s` alone when `n = 1` and otherwise
`s` followed by the decimal numeral of `n`, which consists of digits, has value `n` and has no
leading zero. The three tests of the source hold. -/
theorem Encode_run_tokens (x : String) :
    Encode x = String.mk ((runs x.data).flatMap (fun r => runToken r.1 r.2))
    ∧ expandRuns (runs x.data) = x.data
    ∧ (runs x.data).Chain' (fun a b => a.1 ≠ b.1)
    ∧ (∀ r ∈ runs x.data, 1 ≤ r.2)
    ∧ (∀ rs : List (Char × Nat), expandRuns rs = x.data → rs.Chain' (fun a b => a.1 ≠ b.1) →
        (∀ r ∈ rs, 1 ≤ r.2) → rs = runs x.data)
    ∧ (∀ (acc : String) (s : Char) (n : Nat),
        writeOutput acc s n = String.mk (acc.data ++ runToken s n))
    ∧ (∀ n : Nat, (∀ c ∈ decimalString n, c.isDigit = true)
        ∧ decimalValue (decimalString n) = n
        ∧ (0 < n → (decimalString n).head? ≠ some '0'))
    ∧ Encode "AAABZZZZZTTT" = "A3BZ5T3"
    ∧ writeOutput "" 'a' 63 = "a63"
    ∧ writeOutput "" 'a' 68 = "a68" := by
  refine ⟨?_, expandRuns_runs _, runs_chain _, runs_pos _, ?_, ?_, ?_, by decide, by decide,
    by decide⟩
  · unfold Encode
    rw [encodeChars_eq]
  · intro rs hexp hchain hpos
    rw [← hexp, runs_unique rs hchain hpos]
  · intro acc s n
    unfold writeOutput
    rw [writeOutputChars_eq]
  · intro n
    exact ⟨decimalString_isDigit n, decimalValue_decimalString n, decimalString_head n⟩

/-- The run decomposition of the string of `TestEncode`. -/
theorem Encode_run_tokens_witness :
    Encode "AAABZZZZZTTT"
      = String.mk ((runs "AAABZZZZZTTT".data).flatMap (fun r => runToken r.1 r.2))
    ∧ runs "AAABZZZZZTTT".data = [('A', 3), ('B', 1), ('Z', 5), ('T', 3)] :=
  ⟨(Encode_run_tokens "AAABZZZZZTTT").1, by decide⟩

/-- Claim C3. For every well-formed encoded string, that is the concatenation of tokens each of
which is a non-digit symbol followed by zero or more decimal digits, `Decode` returns the
concatenation, in order, of each token's symbol repeated as many times as the decimal value of
all the token's digits, and once when the token has no digits. -/
theorem Decode_tokens (ts : List Token) (h : ∀ t ∈ ts, t.wellFormed) :
    Decode (String.mk (ts.flatMap Token.render)) = String.mk (ts.flatMap Token.expand) := by
  unfold Decode
  rw [decodeChars_tokens ts h]

/-- The strings of `TestDecodeLongString` and `TestDecode`, read as token lists. -/
theorem Decode_tokens_witness :
    Decode "a30" = String.mk (List.replicate 30 'a')
    ∧ Decode "A3BZ5T3" = "AAABZZZZZTTT" :=
  ⟨Decode_tokens [⟨'a', ['3', '0']⟩] (by decide),
   Decode_tokens [⟨'A', ['3']⟩, ⟨'B', []⟩, ⟨'Z', ['5']⟩, ⟨'T', ['3']⟩] (by decide)⟩

/-- Claim C4. The runner checks the stop signal once at the start of every iteration, before
the sleep and the call of the action. When the stop channel is ready at check `n` and at no
earlier check (and the completion sends before it, if any, are received), the runner returns
there: its trace is `n` full iterations followed by the check that fired, with exactly `n`
sleeps and `n` calls of the action. With `n = 0`, a stop signal activated before the call, the
action is not executed at all and the runner returns. At any iteration and in any state, when
the stop channel is ready the loop returns at once, adding only the check to the trace. -/
theorem executeRepeatedly_cancellation {σ : Type} (sleepDuration : Int) (toExecute : σ → σ)
    (stopExecution : StopChan) (responseChannel : Option RespChan) (s : σ) (n fuel : Nat)
    (hbefore : ∀ j, j < n → stopExecution.ready j = false)
    (hstop : stopExecution.ready n = true)
    (hcons : ∀ ch, responseChannel = some ch → ∀ j, j < n → ch.consumed j = true)
    (hfuel : n < fuel) :
    executeRepeatedly sleepDuration toExecute (some stopExecution) responseChannel s fuel
      = ⟨RunStatus.returned,
          rounds sleepDuration responseChannel.isSome n ++ [RunnerEvent.stopCheck true],
          toExecute^[n] s⟩
    ∧ callCount (executeRepeatedly sleepDuration toExecute (some stopExecution)
        responseChannel s fuel).trace = n
    ∧ sleepCount sleepDuration (executeRepeatedly sleepDuration toExecute (some stopExecution)
        responseChannel s fuel).trace = n
    ∧ (∀ (i more : Nat) (s2 : σ) (tr : List RunnerEvent), stopExecution.ready i = true →
        executeLoop sleepDuration toExecute (some stopExecution) responseChannel (more + 1) i s2 tr
          = ⟨RunStatus.returned, tr ++ [RunnerEvent.stopCheck true], s2⟩) := by
  have key : executeRepeatedly sleepDuration toExecute (some stopExecution) responseChannel s fuel
      = ⟨RunStatus.returned,
          rounds sleepDuration responseChannel.isSome n ++ [RunnerEvent.stopCheck true],
          toExecute^[n] s⟩ := by
    unfold executeRepeatedly
    rw [executeLoop_stops sleepDuration toExecute (some stopExecution) responseChannel n fuel 0 s []
      hfuel (fun j hj => by simpa [stopReady] using hbefore j hj)
      (by simpa [stopReady] using hstop)
      (fun ch h j hj => by simpa using hcons ch h j hj)]
    simp
  refine ⟨key, ?_, ?_, ?_⟩
  · rw [key]
    show callCount (rounds sleepDuration responseChannel.isSome n ++ [RunnerEvent.stopCheck true]) = n
    unfold callCount
    rw [List.count_append]
    have := callCount_rounds sleepDuration responseChannel.isSome n
    unfold callCount at this
    rw [this]
    simp [List.count_cons]
  · rw [key]
    show sleepCount sleepDuration
      (rounds sleepDuration responseChannel.isSome n ++ [RunnerEvent.stopCheck true]) = n
    unfold sleepCount
    rw [List.count_append]
    have := sleepCount_rounds sleepDuration responseChannel.isSome n
    unfold sleepCount at this
    rw [this]
    simp [List.count_cons]
  · intro i more s2 tr hi
    rw [executeLoop]
    simp [stopReady, hi]

/-- A runner whose stop channel is ready from the start returns without calling the action. -/
theorem executeRepeatedly_cancellation_witness :
    firedStop.ready 0 = true
    ∧ callCount (executeRepeatedly 1000 (fun k : Nat => k + 1) (some firedStop) none 0 1).trace = 0
    ∧ (executeRepeatedly 1000 (fun k : Nat => k + 1) (some firedStop) none 0 1).status
        = RunStatus.returned :=
  ⟨rfl,
   (executeRepeatedly_cancellation 1000 (fun k : Nat => k + 1) firedStop none 0 0 1
      (by decide) rfl (by intro ch h; cases h) (by decide)).2.1,
   congrArg RunResult.status
     (executeRepeatedly_cancellation 1000 (fun k : Nat => k + 1) firedStop none 0 0 1
      (by decide) rfl (by intro ch h; cases h) (by decide)).1⟩

/-- Claim C5. One round of the action of `heartbeatRemoteNodes` starts exactly one
`TestConnection` for the peer of every slot that is not nil and nothing else, so nothing for a
nil slot; one round of the action of `getRemoteBloomFilters` does the same with
`GetBloomFilter`. The loops run these rounds one after the other. -/
theorem heartbeat_fanout (peerList : List (Option Peer)) (interval : Int)
    (log : List Dispatch) (fuel : Nat) :
    (∀ j p, peerList[j]? = some (some p) →
        (heartbeatAction peerList []).count ⟨PeerOp.TestConnection, j, p⟩ = 1)
    ∧ (∀ x ∈ heartbeatAction peerList [],
        x.op = PeerOp.TestConnection ∧ peerList[x.slot]? = some (some x.peer))
    ∧ (∀ j, peerList[j]? = some none → ∀ x ∈ heartbeatAction peerList [], x.slot ≠ j)
    ∧ (heartbeatAction peerList []).length = (peerList.filter Option.isSome).length
    ∧ heartbeatAction peerList log = log ++ heartbeatAction peerList []
    ∧ (heartbeatRemoteNodes peerList interval log fuel).state
        = log ++ (List.replicate fuel (heartbeatAction peerList [])).flatten
    ∧ (∀ j p, peerList[j]? = some (some p) →
        (bloomFilterAction peerList []).count ⟨PeerOp.GetBloomFilter, j, p⟩ = 1)
    ∧ (∀ x ∈ bloomFilterAction peerList [],
        x.op = PeerOp.GetBloomFilter ∧ peerList[x.slot]? = some (some x.peer))
    ∧ (∀ j, peerList[j]? = some none → ∀ x ∈ bloomFilterAction peerList [], x.slot ≠ j)
    ∧ (bloomFilterAction peerList []).length = (peerList.filter Option.isSome).length
    ∧ bloomFilterAction peerList log = log ++ bloomFilterAction peerList []
    ∧ (getRemoteBloomFilters peerList interval log fuel).state
        = log ++ (List.replicate fuel (bloomFilterAction peerList [])).flatten := by
  have hcount : ∀ op j p, peerList[j]? = some (some p) →
      (rangeDispatch op 0 peerList []).count ⟨op, j, p⟩ = 1 := by
    intro op j p h
    have := rangeDispatch_count op peerList 0 j p h
    rwa [Nat.zero_add] at this
  have hmem : ∀ op, ∀ x ∈ rangeDispatch op 0 peerList [],
      x.op = op ∧ peerList[x.slot]? = some (some x.peer) := by
    intro op x hx
    have := rangeDispatch_mem op peerList 0 x hx
    exact ⟨this.1, by simpa using this.2.2⟩
  have hnil : ∀ op j, peerList[j]? = some none →
      ∀ x ∈ rangeDispatch op 0 peerList [], x.slot ≠ j := by
    intro op j hj x hx hxj
    have := (hmem op x hx).2
    rw [hxj, hj] at this
    simp at this
  refine ⟨hcount _, hmem _, hnil _, rangeDispatch_length _ _ 0, rangeDispatch_log _ _ 0 log, ?_,
    hcount _, hmem _, hnil _, rangeDispatch_length _ _ 0, rangeDispatch_log _ _ 0 log, ?_⟩
  · unfold heartbeatRemoteNodes executeRepeatedly
    rw [executeLoop_nil_nil]
    exact iterate_rangeDispatch _ _ _ _
  · unfold getRemoteBloomFilters executeRepeatedly
    rw [executeLoop_nil_nil]
    exact iterate_rangeDispatch _ _ _ _

/-- One round over a peer set with two peers and two nil slots. -/
theorem heartbeat_fanout_witness :
    heartbeatAction sparsePeers []
      = [⟨PeerOp.TestConnection, 1, ⟨"10.0.0.1:5454"⟩⟩, ⟨PeerOp.TestConnection, 3, ⟨"10.0.0.2:5454"⟩⟩]
    ∧ (heartbeatAction sparsePeers []).count ⟨PeerOp.TestConnection, 3, ⟨"10.0.0.2:5454"⟩⟩ = 1 :=
  ⟨by decide, (heartbeat_fanout sparsePeers 1000 [] 1).1 3 ⟨"10.0.0.2:5454"⟩ (by decide)⟩

/-- Claim C6. For every pair of intervals and every registry, `Heartbeat` starts exactly four
loops: `heartbeatRemoteNodes` over `Peers` at `heartbeatInterval` and over `BackupPeers` at
`cycleDuration`, and `getRemoteBloomFilters` over `Peers` and over `BackupPeers`, both at
`cycleDuration`. Run for one iteration each, they sleep these intervals and start these
operations over these sets. -/
theorem Heartbeat_four_loops (heartbeatInterval cycleDuration : Int) (peerList : PeerList) :
    Heartbeat heartbeatInterval cycleDuration peerList
      = [Goroutine.heartbeatRemoteNodes peerList.Peers heartbeatInterval,
         Goroutine.heartbeatRemoteNodes peerList.BackupPeers cycleDuration,
         Goroutine.getRemoteBloomFilters peerList.Peers cycleDuration,
         Goroutine.getRemoteBloomFilters peerList.BackupPeers cycleDuration]
    ∧ (Heartbeat heartbeatInterval cycleDuration peerList).length = 4
    ∧ (Heartbeat heartbeatInterval cycleDuration peerList).map (fun g => g.run [] 1)
      = [⟨RunStatus.running, roundEvents heartbeatInterval false,
            heartbeatAction peerList.Peers []⟩,
         ⟨RunStatus.running, roundEvents cycleDuration false,
            heartbeatAction peerList.BackupPeers []⟩,
         ⟨RunStatus.running, roundEvents cycleDuration false,
            bloomFilterAction peerList.Peers []⟩,
         ⟨RunStatus.running, roundEvents cycleDuration false,
            bloomFilterAction peerList.BackupPeers []⟩] :=
  ⟨rfl, rfl, rfl⟩

/-- Claim C7. For a node that is not a base node and every `k`, when `ConnectAllPeers` is
called at all, fails on its first `k` calls and succeeds on call `k + 1`, the trace of
`StartIncomingNetwork` splits into a part with exactly `k` sleeps, each of 60 seconds, exactly
`k + 1` calls of `ConnectAllPeers` and no `go` statement or router start, followed by the four
`go` statements of `Heartbeat`, the start of the router, and sends on the router's stop channel
only. -/
theorem StartIncomingNetwork_connect_retry (env : Env) (config : Cfg) (k fuel : Nat)
    (hbase : config.BaseNode = false)
    (hcalled : (StartIncomingNetwork env config fuel).trace.any Event.isConnect = true)
    (hfail : ∀ i, i < k → env.connectErr i = true)
    (hok : env.connectErr k = false)
    (hfuel : k ≤ fuel) :
    ∃ pre pl rest,
      (StartIncomingNetwork env config fuel).trace
        = pre ++ (Heartbeat (wrapInt64 (config.HeartbeatInterval * Millisecond))
            (wrapInt64 (config.HeartbeatLoop * Second)) pl).map Event.go
          ++ Event.startNetworkRouter pl :: rest
      ∧ pre.countP Event.isSleep = k
      ∧ (∀ d, Event.sleep d ∈ pre → d = 60 * Second)
      ∧ pre.countP Event.isConnect = k + 1
      ∧ (∀ e ∈ pre, e.isGo = false ∧ e.isRouterStart = false)
      ∧ (∀ e ∈ rest, e = Event.routerStopSend) := by
  obtain ⟨trp, htrp, hnew⟩ := populatePeers_trace config.RemotePeers 0 env.NewPeerList []
  rw [List.nil_append] at htrp
  rcases hp : populatePeers 0 config.RemotePeers env.NewPeerList [] with ⟨ok, pl2, tr2⟩
  rw [hp] at htrp
  simp only at htrp
  subst htrp
  cases ok with
  | false =>
    exfalso
    have htrace : (StartIncomingNetwork env config fuel).trace = tr2 := by
      unfold StartIncomingNetwork
      simp only [hbase, Bool.not_false, if_true, hp]
    rw [htrace, List.any_eq_true] at hcalled
    obtain ⟨e, he, hc⟩ := hcalled
    have := hnew e he
    cases e <;> simp [Event.isConnect, Event.isNewPeer] at hc this
  | true =>
    obtain ⟨seg, pl3, hretry, hsl, hco, hdur, hno⟩ :=
      connectRetry_ok env k fuel 0 (env.connectEffect 0 pl2)
        (tr2 ++ [Event.connectAllPeers pl2]) hfuel
        (fun j hj => by simpa using hfail j hj) (by simpa using hok)
    obtain ⟨cnt, hctl, -⟩ := controlLoop_running env fuel 0
      (((tr2 ++ [Event.connectAllPeers pl2]) ++ seg)
        ++ (Heartbeat (wrapInt64 (config.HeartbeatInterval * Millisecond))
              (wrapInt64 (config.HeartbeatLoop * Second)) pl3).map Event.go
        ++ [Event.startNetworkRouter pl3])
    have hzero : ∀ p : Event → Bool, (∀ e, e.isNewPeer = true → p e = false) →
        List.countP p tr2 = 0 := by
      intro p hp2
      rw [List.countP_eq_zero]
      intro e he
      simp [hp2 e (hnew e he)]
    refine ⟨tr2 ++ [Event.connectAllPeers pl2] ++ seg, pl3,
      List.replicate cnt Event.routerStopSend, ?_, ?_, ?_, ?_, ?_, ?_⟩
    · unfold StartIncomingNetwork
      simp only [hbase, Bool.not_false, if_true, hp]
      rw [Nat.zero_add] at hretry
      simp only [hretry, hctl]
      simp
    · rw [List.countP_append, List.countP_append, hsl,
        hzero Event.isSleep (fun e he => by cases e <;> simp [Event.isNewPeer, Event.isSleep] at he ⊢)]
      simp [List.countP_cons, Event.isSleep]
    · intro d hd
      simp only [List.mem_append, List.mem_singleton] at hd
      rcases hd with (h | h) | h
      · have := hnew _ h
        simp [Event.isNewPeer] at this
      · cases h
      · rw [hdur d h, Int.mul_comm]
    · rw [List.countP_append, List.countP_append, hco,
        hzero Event.isConnect
          (fun e he => by cases e <;> simp [Event.isNewPeer, Event.isConnect] at he ⊢)]
      simp [List.countP_cons, Event.isConnect]
      omega
    · intro e he
      simp only [List.mem_append, List.mem_singleton] at he
      rcases he with (h | rfl) | h
      · have := hnew e h
        cases e <;> simp [Event.isNewPeer, Event.isGo, Event.isRouterStart] at this ⊢
      · simp [Event.isGo, Event.isRouterStart]
      · exact ⟨(hno e h).1, (hno e h).2.1⟩
    · intro e he
      exact List.eq_of_mem_replicate he

/-- Two failed calls of `ConnectAllPeers` followed by a successful one. -/
theorem StartIncomingNetwork_connect_retry_witness :
    (twoPeersCfg.BaseNode = false
      ∧ (StartIncomingNetwork twoFailuresEnv twoPeersCfg 5).trace.any Event.isConnect = true
      ∧ (∀ i, i < 2 → twoFailuresEnv.connectErr i = true)
      ∧ twoFailuresEnv.connectErr 2 = false)
    ∧ ∃ pre pl rest,
      (StartIncomingNetwork twoFailuresEnv twoPeersCfg 5).trace
        = pre ++ (Heartbeat (wrapInt64 (twoPeersCfg.HeartbeatInterval * Millisecond))
            (wrapInt64 (twoPeersCfg.HeartbeatLoop * Second)) pl).map Event.go
          ++ Event.startNetworkRouter pl :: rest
      ∧ pre.countP Event.isSleep = 2
      ∧ (∀ d, Event.sleep d ∈ pre → d = 60 * Second)
      ∧ pre.countP Event.isConnect = 2 + 1
      ∧ (∀ e ∈ pre, e.isGo = false ∧ e.isRouterStart = false)
      ∧ (∀ e ∈ rest, e = Event.routerStopSend) :=
  ⟨⟨rfl, by decide, by decide, by decide⟩,
   StartIncomingNetwork_connect_retry twoFailuresEnv twoPeersCfg 2 5 rfl (by decide) (by decide)
     (by decide) (by decide)⟩

/-- Claim C8, evaluated on the code. `StartIncomingNetwork` never returns: whatever its
surroundings and configuration and however many loop iterations are unrolled, its status is not
`returned`. For a base node whose shutdown signal can be received at the first `select`, the
function sends one notification on the router's stop channel and then keeps looping. -/
theorem StartIncomingNetwork_never_returns :
    (∀ (env : Env) (config : Cfg) (fuel : Nat),
      (StartIncomingNetwork env config fuel).status ≠ Status.returned)
    ∧ (∀ fuel : Nat, StartIncomingNetwork shutdownEnv baseCfg (fuel + 1)
        = ⟨Status.running, [Event.startNetworkRouter emptyRegistry, Event.routerStopSend],
            emptyRegistry⟩) := by
  constructor
  · intro env config fuel
    unfold StartIncomingNetwork
    cases hb : config.BaseNode with
    | true =>
      obtain ⟨m, hm, -⟩ := controlLoop_running env fuel 0 [Event.startNetworkRouter env.NewPeerList]
      simp [hm]
    | false =>
      simp only [Bool.not_false, if_true]
      rcases hp : populatePeers 0 config.RemotePeers env.NewPeerList [] with ⟨ok, pl, tr⟩
      cases ok with
      | false => simp
      | true =>
        simp only
        rcases hr : connectRetry env fuel 1 (env.connectErr 0) (env.connectEffect 0 pl)
          (tr ++ [Event.connectAllPeers pl]) with ⟨ok2, pl1, tr1⟩
        cases ok2 with
        | false => simp
        | true =>
          simp only
          obtain ⟨m, hm, -⟩ := controlLoop_running env fuel 0
            (tr1 ++ (Heartbeat (wrapInt64 (config.HeartbeatInterval * Millisecond))
              (wrapInt64 (config.HeartbeatLoop * Second)) pl1).map Event.go
              ++ [Event.startNetworkRouter pl1])
          simp only [hm]
          simp
  · intro fuel
    have hq := controlLoop_quiet shutdownEnv fuel 1
      ([Event.startNetworkRouter emptyRegistry] ++ [Event.routerStopSend])
      (fun j => by simp [shutdownEnv])
    simp only [StartIncomingNetwork, baseCfg, Bool.not_true, Bool.false_eq_true, if_false]
    rw [controlLoop]
    simp only [shutdownEnv, decide_True, if_true, Nat.zero_add] at hq ⊢
    rw [hq]
    rfl

/-- Claim C9 as stated fails: with a registry of three primary slots and four configured
remote peers, the run panics at the store into slot 3. The fourth address is given no slot and
is not marked, and `ConnectAllPeers` is never called. -/
theorem StartIncomingNetwork_populate_counterexample :
    fourPeersCfg.BaseNode = false
    ∧ (StartIncomingNetwork twoFailuresEnv fourPeersCfg 5).status = Status.panicked
    ∧ (StartIncomingNetwork twoFailuresEnv fourPeersCfg 5).peerList.Peers[3]? = none
    ∧ (StartIncomingNetwork twoFailuresEnv fourPeersCfg 5).peerList.PeerMap
        = [("10.0.0.3:5454", true), ("10.0.0.2:5454", true), ("10.0.0.1:5454", true)]
    ∧ (∀ e ∈ (StartIncomingNetwork twoFailuresEnv fourPeersCfg 5).trace, e.isConnect = false)
    ∧ ¬ PopulatedBeforeConnect fourPeersCfg (StartIncomingNetwork twoFailuresEnv fourPeersCfg 5) := by
  refine ⟨rfl, by decide, by decide, by decide, by decide, ?_⟩
  rintro ⟨pl, rest, h, -⟩
  have hmem : Event.connectAllPeers pl
      ∈ (StartIncomingNetwork twoFailuresEnv fourPeersCfg 5).trace := by
    rw [h]; simp
  have hnone : ∀ e ∈ (StartIncomingNetwork twoFailuresEnv fourPeersCfg 5).trace,
      e.isConnect = false := by decide
  have := hnone _ hmem
  simp [Event.isConnect] at this

/-- Claim C9, amended. For a base node `StartIncomingNetwork` leaves the registry as
`NewPeerList` returned it and its trace is the start of the router on that registry followed by
sends on the router's stop channel only: no peer is constructed, `ConnectAllPeers` is not
called, nothing sleeps and `Heartbeat` is not started. For a node that is not a base node,
when the primary set has a slot for every configured address, one peer is constructed per configured address, in order, and the first `ConnectAllPeers` is called on a
registry whose primary slot `i` holds the peer of `RemotePeers[i]` and whose map marks every
configured address true. -/
theorem StartIncomingNetwork_base_and_populate (env : Env) (config : Cfg) (fuel : Nat) :
    (config.BaseNode = true →
      (StartIncomingNetwork env config fuel).peerList = env.NewPeerList
      ∧ (StartIncomingNetwork env config fuel).status = Status.running
      ∧ (∃ cnt, (StartIncomingNetwork env config fuel).trace
          = Event.startNetworkRouter env.NewPeerList :: List.replicate cnt Event.routerStopSend)
      ∧ (∀ e ∈ (StartIncomingNetwork env config fuel).trace,
          e.isNewPeer = false ∧ e.isConnect = false ∧ e.isSleep = false ∧ e.isGo = false))
    ∧ (config.BaseNode = false →
        config.RemotePeers.length ≤ env.NewPeerList.Peers.length →
        PopulatedBeforeConnect config (StartIncomingNetwork env config fuel)) := by
  constructor
  · intro hbase
    obtain ⟨cnt, hctl, -⟩ :=
      controlLoop_running env fuel 0 [Event.startNetworkRouter env.NewPeerList]
    have htrace : (StartIncomingNetwork env config fuel).trace
        = Event.startNetworkRouter env.NewPeerList :: List.replicate cnt Event.routerStopSend := by
      simp [StartIncomingNetwork, hbase, hctl]
    refine ⟨by simp [StartIncomingNetwork, hbase], by simp [StartIncomingNetwork, hbase, hctl],
      ⟨cnt, htrace⟩, ?_⟩
    intro e he
    rw [htrace, List.mem_cons] at he
    rcases he with rfl | he
    · simp [Event.isNewPeer, Event.isConnect, Event.isSleep, Event.isGo]
    · rw [List.eq_of_mem_replicate he]
      simp [Event.isNewPeer, Event.isConnect, Event.isSleep, Event.isGo]
  · intro hbase hslots
    obtain ⟨pl2, hpop, -, -, hplaced, -, hmarked, -⟩ :=
      populatePeers_ok config.RemotePeers 0 env.NewPeerList [] (by omega)
    have hprefix : ∀ (fuel c : Nat) (err : Bool) (pl : PeerList) (tr : List Event),
        ∃ seg, (connectRetry env fuel c err pl tr).2.2 = tr ++ seg := by
      intro fuel
      induction fuel with
      | zero =>
        intro c err pl tr
        cases err <;> exact ⟨[], by simp [connectRetry]⟩
      | succ fuel ih =>
        intro c err pl tr
        cases err with
        | false => exact ⟨[], by simp [connectRetry]⟩
        | true =>
          rw [connectRetry]
          obtain ⟨seg, hseg⟩ := ih (c + 1) (env.connectErr c) (env.connectEffect c pl)
            (tr ++ [Event.logPrintln "Sleeping for 60 seconds and attempting to reconnect",
              Event.sleep (Second * 60), Event.connectAllPeers pl])
          exact ⟨_, by rw [hseg, List.append_assoc]⟩
    obtain ⟨seg, hseg⟩ := hprefix fuel 1 (env.connectErr 0) (env.connectEffect 0 pl2)
      ([] ++ config.RemotePeers.map Event.newPeerByIP ++ [Event.connectAllPeers pl2])
    have htrace : ∃ rest, (StartIncomingNetwork env config fuel).trace
        = config.RemotePeers.map Event.newPeerByIP ++ Event.connectAllPeers pl2 :: rest := by
      unfold StartIncomingNetwork
      simp only [hbase, Bool.not_false, if_true, hpop]
      rcases hr : connectRetry env fuel 1 (env.connectErr 0) (env.connectEffect 0 pl2)
        ([] ++ config.RemotePeers.map Event.newPeerByIP ++ [Event.connectAllPeers pl2])
        with ⟨ok, pl3, tr3⟩
      rw [hr] at hseg
      simp only at hseg
      cases ok with
      | false => exact ⟨seg, by simp [hseg]⟩
      | true =>
        obtain ⟨cnt, hctl, -⟩ := controlLoop_running env fuel 0
          (tr3 ++ (Heartbeat (wrapInt64 (config.HeartbeatInterval * Millisecond))
            (wrapInt64 (config.HeartbeatLoop * Second)) pl3).map Event.go
            ++ [Event.startNetworkRouter pl3])
        simp only [hctl]
        rw [hseg]
        refine ⟨seg ++ ((Heartbeat (wrapInt64 (config.HeartbeatInterval * Millisecond))
            (wrapInt64 (config.HeartbeatLoop * Second)) pl3).map Event.go
            ++ Event.startNetworkRouter pl3 :: List.replicate cnt Event.routerStopSend), ?_⟩
        simp only [List.nil_append, List.append_assoc, List.singleton_append, List.cons_append]
    obtain ⟨rest, hrest⟩ := htrace
    refine ⟨pl2, rest, hrest, ?_, hmarked⟩
    intro i hi
    have := hplaced i hi
    rwa [Nat.zero_add] at this

/-- A base node and a node with two remote peers over a registry of three slots. -/
theorem StartIncomingNetwork_base_and_populate_witness :
    (StartIncomingNetwork twoFailuresEnv baseCfg 3).trace
        = [Event.startNetworkRouter emptyRegistry, Event.routerStopSend]
    ∧ (StartIncomingNetwork twoFailuresEnv baseCfg 3).peerList = emptyRegistry
    ∧ PopulatedBeforeConnect twoPeersCfg (StartIncomingNetwork twoFailuresEnv twoPeersCfg 3) :=
  ⟨by decide,
   ((StartIncomingNetwork_base_and_populate twoFailuresEnv baseCfg 3).1 rfl).1,
   (StartIncomingNetwork_base_and_populate twoFailuresEnv twoPeersCfg 3).2 rfl (by decide)⟩

/-- Claim C10. In every run with a completion channel all sends on which are received, the
trace is a sequence of full iterations, each a stop check, one sleep of the interval, one call
of the action and one notification of value 1, followed by the firing stop check when the run
has returned. So at every stop check and at the end the number of notifications equals the
number of calls of the action, the values passed back add up to that number, and the action has
been applied that many times. With a nil completion channel no notification is sent. -/
theorem executeRepeatedly_completion {σ : Type} (sleepDuration : Int) (toExecute : σ → σ)
    (stopExecution : Option StopChan) (ch : RespChan) (s : σ) (fuel : Nat)
    (hcons : ∀ j, ch.consumed j = true) :
    (∃ n, (executeRepeatedly sleepDuration toExecute stopExecution (some ch) s fuel).trace
        = rounds sleepDuration true n
          ++ (if (executeRepeatedly sleepDuration toExecute stopExecution (some ch) s fuel).status
                = RunStatus.returned then [RunnerEvent.stopCheck true] else []))
    ∧ (executeRepeatedly sleepDuration toExecute stopExecution (some ch) s fuel).status
        ≠ RunStatus.blocked
    ∧ (∀ p q b, (executeRepeatedly sleepDuration toExecute stopExecution (some ch) s fuel).trace
          = p ++ RunnerEvent.stopCheck b :: q → sendCount p = callCount p)
    ∧ sendCount (executeRepeatedly sleepDuration toExecute stopExecution (some ch) s fuel).trace
        = callCount (executeRepeatedly sleepDuration toExecute stopExecution (some ch) s fuel).trace
    ∧ sendTotal (executeRepeatedly sleepDuration toExecute stopExecution (some ch) s fuel).trace
        = callCount (executeRepeatedly sleepDuration toExecute stopExecution (some ch) s fuel).trace
    ∧ (executeRepeatedly sleepDuration toExecute stopExecution (some ch) s fuel).state
        = toExecute^[callCount
            (executeRepeatedly sleepDuration toExecute stopExecution (some ch) s fuel).trace] s
    ∧ (∀ e ∈ (executeRepeatedly sleepDuration toExecute stopExecution none s fuel).trace,
        ∀ v, e ≠ RunnerEvent.send v) := by
  obtain ⟨n, -, htr, hst, -, hs⟩ := executeLoop_structure sleepDuration toExecute stopExecution
    (some ch) (fun c hc j => by cases hc; exact hcons j) fuel 0 s []
  obtain ⟨n0, -, htr0, -, -, -⟩ := executeLoop_structure sleepDuration toExecute stopExecution
    none (fun c hc => by cases hc) fuel 0 s []
  simp only [List.nil_append, Option.isSome_some, Option.isSome_none] at htr htr0
  have htail : ∀ st : RunStatus, (if st = RunStatus.returned then [RunnerEvent.stopCheck true]
      else []) = [] ∨ (if st = RunStatus.returned then [RunnerEvent.stopCheck true] else [])
        = [RunnerEvent.stopCheck true] := by
    intro st
    by_cases h : st = RunStatus.returned
    · right; simp [h]
    · left; simp [h]
  have hcalls : callCount (executeRepeatedly sleepDuration toExecute stopExecution (some ch) s
      fuel).trace = n := by
    unfold executeRepeatedly
    rw [htr]
    unfold callCount
    rw [List.count_append]
    have := callCount_rounds sleepDuration true n
    unfold callCount at this
    rw [this]
    rcases htail (executeLoop sleepDuration toExecute stopExecution (some ch) fuel 0 s []).status
      with h | h <;> rw [h] <;> simp [List.count_cons]
  have hsends : sendCount (executeRepeatedly sleepDuration toExecute stopExecution (some ch) s
      fuel).trace = n := by
    unfold executeRepeatedly
    rw [htr]
    unfold sendCount
    rw [List.countP_append]
    have := sendCount_rounds sleepDuration true n
    unfold sendCount at this
    rw [this]
    rcases htail (executeLoop sleepDuration toExecute stopExecution (some ch) fuel 0 s []).status
      with h | h <;> rw [h] <;> simp [List.countP_cons]
  have htotal : sendTotal (executeRepeatedly sleepDuration toExecute stopExecution (some ch) s
      fuel).trace = n := by
    unfold executeRepeatedly
    rw [htr]
    unfold sendTotal
    rw [List.map_append, List.sum_append]
    have := sendTotal_rounds sleepDuration true n
    unfold sendTotal at this
    rw [this]
    rcases htail (executeLoop sleepDuration toExecute stopExecution (some ch) fuel 0 s []).status
      with h | h <;> rw [h] <;> simp
  refine ⟨⟨n, htr⟩, hst, ?_, by rw [hsends, hcalls], by rw [htotal, hcalls], ?_, ?_⟩
  · intro p q b hsplit
    unfold executeRepeatedly at hsplit
    rw [htr] at hsplit
    exact rounds_split_balanced sleepDuration _ (htail _) n p q b hsplit
  · rw [hcalls]
    exact hs
  · intro e he v
    unfold executeRepeatedly at he
    rw [htr0, List.mem_append] at he
    rcases he with he | he
    · exact no_send_rounds sleepDuration n0 e he v
    · rcases htail (executeLoop sleepDuration toExecute stopExecution none fuel 0 s []).status
        with h | h
      · rw [h] at he; simp at he
      · rw [h] at he
        simp only [List.mem_singleton] at he
        rw [he]
        simp

/-- A runner stopped at its third check, with a completion channel that is drained. -/
theorem executeRepeatedly_completion_witness :
    (∀ j, drainedResp.consumed j = true)
    ∧ sendCount (executeRepeatedly 1000 (fun k : Nat => k + 1)
        (some ⟨fun i => decide (i = 2)⟩) (some drainedResp) 0 5).trace
      = callCount (executeRepeatedly 1000 (fun k : Nat => k + 1)
        (some ⟨fun i => decide (i = 2)⟩) (some drainedResp) 0 5).trace
    ∧ callCount (executeRepeatedly 1000 (fun k : Nat => k + 1)
        (some ⟨fun i => decide (i = 2)⟩) (some drainedResp) 0 5).trace = 2 :=
  ⟨fun _ => rfl,
   (executeRepeatedly_completion 1000 (fun k : Nat => k + 1) (some ⟨fun i => decide (i = 2)⟩)
      drainedResp 0 5 (fun _ => rfl)).2.2.2.1,
   by decide⟩

end Olivia
